import Mathlib

/-!
Verification of the NASLib successive-halving optimizer and the
NAS-Bench-301 search space (shallow embedding).

The definitions below are translated from
`naslib/optimizers/discrete/sh/optimizer.py` and
`naslib/search_spaces/nasbench301/graph.py`.  Python floats become `ℚ`
(with `⊥ : WithBot ℚ` standing for `-inf` where the code stores
`-float("Inf")`), the real exponential used by `F.softmax` becomes an
abstract strictly monotone positive function `e : ℚ → ℚ`, benchmark
queries become oracle functions, and the random number generator becomes
an explicit source of draws.
-/

namespace NASLib

/-! ## Metrics (`naslib/search_spaces/core/query_metrics.py`) -/

/-- Performance metrics that can be queried from a benchmark. -/
inductive Metric where
  | TRAIN_ACCURACY
  | VAL_ACCURACY
  | TEST_ACCURACY
  | TRAIN_TIME
  | TRAIN_LOSS
  | RAW
deriving DecidableEq, Repr

/-- Python's `sorted(..., key=K, reverse=True)` and
`list.sort(key=K, reverse=True)` are stable sorts placing larger keys
first; this is insertion sort for the relation `K q ≤ K p`. -/
def keyRel {α : Type} (K : α → ℚ) (p q : α) : Prop := K q ≤ K p

instance {α : Type} (K : α → ℚ) : DecidableRel (keyRel K) :=
  fun p q => inferInstanceAs (Decidable (K q ≤ K p))

instance {α : Type} (K : α → ℚ) : IsTotal α (keyRel K) :=
  ⟨fun p q => (le_total (K q) (K p)).imp id id⟩

instance {α : Type} (K : α → ℚ) : IsTrans α (keyRel K) :=
  ⟨fun _ _ _ h1 h2 => le_trans h2 h1⟩

/-! ## Successive-halving scheduler (`sh/optimizer.py`) -/

/-- A population entry: `torch.nn.Module` with fields `arch`, `accuracy`,
`time` attached (`new_epoch`, lines 74, 84, 95).  The architecture itself
is abstracted to an identifier. -/
structure SHModel where
  arch : ℕ
  accuracy : ℚ
  time : ℚ
deriving DecidableEq, Repr, Inhabited

/-- One record appended to `optimizer_stats` by `update_optimizer_stats`. -/
structure StatEntry where
  arch_hash : ℕ
  key : String
  value : ℚ
deriving DecidableEq, Repr

/-- The mutable state of a `SuccessiveHalving` optimizer (`__init__`). -/
structure SHState where
  budget_max : ℚ
  fidelity : ℚ
  number_archs : ℕ
  eta : ℚ
  budget_type : String
  fidelity_counter : ℕ
  sampled_archs : List SHModel
  history : List SHModel
  optimizer_stats : List StatEntry
  end_ : Bool
deriving DecidableEq, Repr

/-- Python `int(q)`: truncation toward zero. -/
def pyInt (q : ℚ) : ℤ := if 0 ≤ q then ⌊q⌋ else ⌈q⌉

/-- Model of `self.sampled_archs.sort(key=lambda model: model.accuracy, reverse=True)`:
Python `list.sort` is a stable sort; with `reverse=True` it sorts
descending by key keeping the original order of equal keys, which is
insertion sort for the relation `b.accuracy ≤ a.accuracy`. -/
def sortByAccDesc (l : List SHModel) : List SHModel :=
  List.insertionSort (keyRel SHModel.accuracy) l

/-- The `for i, p in enumerate(self.history)` loop of `_update_history`
(lines 140-143): replace the first entry whose accuracy is lower than
the challenger's, then `break`. -/
def replaceFirstLower : List SHModel → SHModel → List SHModel
  | [], _ => []
  | p :: rest, c =>
    if c.accuracy > p.accuracy then c :: rest else p :: replaceFirstLower rest c

/-- Model of `SuccessiveHalving._update_history` (lines 136-143): append while
fewer than 100 entries are stored, otherwise replace the first entry
whose accuracy is lower than the challenger's. -/
def update_history (history : List SHModel) (child : SHModel) : List SHModel :=
  if history.length < 100 then history ++ [child]
  else replaceFirstLower history child

/-- Model of `SuccessiveHalving.update_optimizer_stats` (lines 173-194): query the
four metrics of the architecture at the position counter and append the
measurements (and the fidelity) to the stats map.  The append-only map is
modelled as a flat list of entries. -/
def update_optimizer_stats (oracle : ℕ → Metric → ℚ → ℚ) (s : SHState) : SHState :=
  match s.sampled_archs.get? s.fidelity_counter with
  | none => s
  | some m =>
    let q := fun met : Metric => oracle m.arch met s.fidelity
    { s with optimizer_stats := s.optimizer_stats ++
        [⟨m.arch, "train_acc", q .TRAIN_ACCURACY⟩,
         ⟨m.arch, "val_acc", q .VAL_ACCURACY⟩,
         ⟨m.arch, "test_acc", q .TEST_ACCURACY⟩,
         ⟨m.arch, "train_time", q .TRAIN_TIME⟩,
         ⟨m.arch, "fidelity", s.fidelity⟩] }

/-- The end-of-round block of `SuccessiveHalving.new_epoch`
(lines 114-126), executed when `fidelity_counter == number_archs`:
recompute the fidelity, sort the population by accuracy descending,
then either terminate (over budget), promote the top
`floor(number_archs/eta)`, or keep the single best and terminate. -/
def roundTransition (s : SHState) : SHState :=
  let fid' : ℚ := (⌊s.eta * s.fidelity⌋ : ℤ)
  let sorted := sortByAccDesc s.sampled_archs
  let keep : ℤ := ⌊(s.number_archs : ℚ) / s.eta⌋
  if s.budget_max < fid' then
    { s with fidelity := fid', sampled_archs := sorted, end_ := true,
             number_archs := sorted.length, fidelity_counter := 0 }
  else if keep ≠ 0 then
    let pop := sorted.take keep.toNat
    { s with fidelity := fid', sampled_archs := pop,
             number_archs := pop.length, fidelity_counter := 0 }
  else
    let pop := [sorted.headD default]
    { s with fidelity := fid', sampled_archs := pop, end_ := true,
             number_archs := pop.length, fidelity_counter := 0 }

/-- Model of `SuccessiveHalving.new_epoch` (lines 68-128).  `oracle a met ep` is
`arch.query(met, dataset, epoch=ep, dataset_api=...)` for architecture
`a`; `sampleId` is the identity of the architecture produced by
`sample_random_architecture` when the population is not yet full.
Returns the updated state together with the consumed budget, or the
`NameError` message. -/
def new_epoch (oracle : ℕ → Metric → ℚ → ℚ) (sampleId : ℕ) (s : SHState) :
    Except String (SHState × ℚ) :=
  let notFull := s.sampled_archs.length < s.number_archs
  let base : SHModel :=
    if notFull then { arch := sampleId, accuracy := 0, time := 0 }
    else s.sampled_archs.getD s.fidelity_counter default
  let acc := oracle base.arch .VAL_ACCURACY ((pyInt s.fidelity : ℤ) : ℚ)
  let m1 : SHModel := { base with accuracy := acc }
  let step := fun (m2 : SHModel) (budget : ℚ) =>
    let archs1 := if notFull then s.sampled_archs ++ [m2]
                  else s.sampled_archs.set s.fidelity_counter m2
    let s1 := { s with sampled_archs := archs1 }
    let s2 := update_optimizer_stats oracle s1
    let s3 := { s2 with fidelity_counter := s2.fidelity_counter + 1 }
    let s4 := { s3 with history := update_history s3.history m2 }
    let s5 := if s4.fidelity_counter = s4.number_archs then roundTransition s4 else s4
    Except.ok (s5, budget)
  if s.budget_type = "time" then
    -- the code re-queries `self.performance_metric` (VAL_ACCURACY) here
    -- and stores the result as `model.time` and as the consumed budget
    let t := oracle m1.arch .VAL_ACCURACY ((pyInt s.fidelity : ℤ) : ℚ)
    step { m1 with time := t } t
  else if s.budget_type = "epoch" then
    step m1 1
  else
    Except.error "budget time should be time or epoch"

/-! ## `NasBench301SearchSpace.query` (graph.py, lines 364-400) -/

/-- The benchmark handle (`dataset_api`): `dataset_api["nb301_model"][0]`
predicts the validation accuracy, `[1]` predicts the runtime, both for
the genotype of the queried graph. -/
structure DatasetApi where
  predictAcc : ℚ
  predictTime : ℚ
deriving DecidableEq, Repr

/-- The exceptions `query` can raise. -/
inductive QueryError where
  | notImplementedError
  | assertionError
deriving DecidableEq, Repr

/-- Model of `NasBench301SearchSpace.query`: raise `NotImplementedError` when no
`dataset_api` is passed, then `assert not epoch or epoch in [-1, 100]`
(for an integer `epoch`, Python's `not epoch` is `epoch == 0`), then
dispatch on the metric, returning `-1` for unsupported metrics. -/
def query (dataset_api : Option DatasetApi) (metric : Metric) (epoch : ℤ) :
    Except QueryError ℚ :=
  match dataset_api with
  | none => Except.error .notImplementedError
  | some api =>
    if ¬ (epoch = 0 ∨ epoch = -1 ∨ epoch = 100) then Except.error .assertionError
    else
      match metric with
      | .VAL_ACCURACY => Except.ok api.predictAcc
      | .TRAIN_TIME => Except.ok api.predictTime
      | _ => Except.ok (-1)

/-! ## `NasBench301SearchSpace._truncate_input_edges` (graph.py, 402-442)

Edge attributes: an optional architecture-weight vector `alpha` whose
entries live in `WithBot ℚ` (`⊥` models `-float("Inf")`), the list of
candidate operation names `op`, the finalized flag and the deletion mark
set by `EdgeData.delete()`. -/

/-- The `EdgeData` attributes relevant to truncation. -/
structure EdgeData where
  alpha : Option (List (WithBot ℚ))
  op : List String
  final : Bool
  deleted : Bool
deriving DecidableEq, Repr, Inhabited

/-- Model of `torch.min(alpha)`: the least entry of the weight vector. -/
def wmin : List (WithBot ℚ) → WithBot ℚ
  | [] => ⊥
  | x :: xs => xs.foldl min x

/-- Subtraction of a constant, with `-inf - c = -inf`. -/
def wsub (x : WithBot ℚ) (c : ℚ) : WithBot ℚ := x.map (· - c)

/-- The function `exp` extended by `exp(-inf) = 0`; `e` abstracts the real
exponential used by `F.softmax`. -/
def expExt (e : ℚ → ℚ) (x : WithBot ℚ) : ℚ := (x.map e).unbot' 0

/-- The softmax vector computed inside `_largest_post_softmax_weight`
(lines 408-418): set the weight of the `Zero` operation (index 1) to
`min(alpha) - 0.001` and apply softmax. -/
def post_softmax (e : ℚ → ℚ) (a : List (WithBot ℚ)) : List ℚ :=
  let a1 := a.set 1 (wsub (wmin a) (1 / 1000))
  let exps := a1.map (expExt e)
  exps.map (fun x => x / exps.sum)

/-- Model of `_largest_post_softmax_weight` (lines 408-418): the maximum
post-softmax weight of an edge, the key of the descending sort. -/
def largest_post_softmax_weight (e : ℚ → ℚ) (d : EdgeData) : ℚ :=
  match d.alpha with
  | none => 0
  | some a => (post_softmax e a).foldr max 0

/-- Model of `data.alpha.data[1] = -float("Inf")` (line 427). -/
def setAlphaInf (d : EdgeData) : EdgeData :=
  { d with alpha := d.alpha.map (fun a => a.set 1 ⊥) }

/-- The `for _, data in in_edges` loop of the one-shot branch
(lines 424-427): walk the edges in order, returning as soon as a
finalized edge is seen (flag `true`), otherwise forcing the `Zero`
weight of every edge to `-inf`. -/
def oneShotMutate : List (ℕ × EdgeData) → List (ℕ × EdgeData) × Bool
  | [] => ([], false)
  | (u, d) :: rest =>
    if d.final then ((u, d) :: rest, true)
    else
      let r := oneShotMutate rest
      ((u, setAlphaInf d) :: r.1, r.2)

/-- The sort key applied to an in-edge `(node id, edge data)`. -/
def edgeKey (e : ℚ → ℚ) (p : ℕ × EdgeData) : ℚ :=
  largest_post_softmax_weight e p.2

/-- Model of `in_edges[i][1].delete()`: mark the edge at index `i` as deleted. -/
def deleteAt (l : List (ℕ × EdgeData)) (i : ℕ) : List (ℕ × EdgeData) :=
  match l.get? i with
  | some p => l.set i (p.1, { p.2 with deleted := true })
  | none => l

/-- The `for _ in range(len(in_edges) - k)` loop (lines 441-442):
each iteration deletes the edge at a freshly drawn random index
(`random.randint(0, len(in_edges) - 1)`, draws with replacement). -/
def deleteLoop (draws : ℕ → ℕ) : ℕ → List (ℕ × EdgeData) → List (ℕ × EdgeData)
  | 0, l => l
  | n + 1, l => deleteLoop draws n (deleteAt l (draws n))

/-- Model of `NasBench301SearchSpace._truncate_input_edges` (lines 402-442),
applied to the in-edges of one node by `prepare_discretization`.
`e` abstracts the real exponential of the softmax and `draws` the
stream of values returned by `random.randint(0, len(in_edges) - 1)`. -/
def truncate_input_edges (e : ℚ → ℚ) (draws : ℕ → ℕ)
    (in_edges : List (ℕ × EdgeData)) : List (ℕ × EdgeData) :=
  let k := 2
  if k ≤ in_edges.length then
    if in_edges.any (fun p => p.2.alpha.isSome || p.2.final) then
      -- the one-shot case
      let mut1 := oneShotMutate in_edges
      if mut1.2 then mut1.1
      else
        let sorted := List.insertionSort (keyRel (edgeKey e)) mut1.1
        let keep := (sorted.take k).map Prod.fst
        mut1.1.map (fun p =>
          if p.1 ∈ keep then p else (p.1, { p.2 with deleted := true }))
    else
      -- the discrete case (e.g. random search): drop the Zero op, then
      -- delete randomly chosen edges
      let popped := in_edges.map (fun p =>
        if p.2.op.get? 1 = some "Zero" then (p.1, { p.2 with op := p.2.op.eraseIdx 1 })
        else p)
      if popped.any (fun p => p.2.final) then popped
      else deleteLoop draws (in_edges.length - k) popped
  else in_edges

/-! ## `NasBench301SearchSpace.sample_random_architecture` (468-491) -/

/-- The constant `NUM_VERTICES` (graph.py, line 31). -/
def NUM_VERTICES : ℕ := 4

/-- The constant `NUM_OPS` (graph.py, line 32). -/
def NUM_OPS : ℕ := 7

/-- The random draws consumed by one call of
`sample_random_architecture`: for every intermediate node `i`,
`opsDraw i j` is `np.random.choice(range(NUM_OPS), NUM_VERTICES)[j]`
and `nodesNormal i` / `nodesReduce i` are the two entries of
`np.random.choice(range(i + 2), 2, replace=False)`. -/
structure RandomSource where
  opsDraw : ℕ → ℕ → ℕ
  nodesNormal : ℕ → ℕ × ℕ
  nodesReduce : ℕ → ℕ × ℕ

/-- The documented contract of the `np.random.choice` calls: op draws
lie in `range(NUM_OPS)`; node draws lie in `range(i + 2)` and, being
drawn without replacement, are distinct. -/
def RandomSource.Valid (r : RandomSource) : Prop :=
  ∀ i < NUM_VERTICES,
    (∀ j < NUM_VERTICES, r.opsDraw i j < NUM_OPS) ∧
    (r.nodesNormal i).1 < i + 2 ∧ (r.nodesNormal i).2 < i + 2 ∧
    (r.nodesNormal i).1 ≠ (r.nodesNormal i).2 ∧
    (r.nodesReduce i).1 < i + 2 ∧ (r.nodesReduce i).2 < i + 2 ∧
    (r.nodesReduce i).1 ≠ (r.nodesReduce i).2

instance : DecidablePred RandomSource.Valid := fun _ => by
  unfold RandomSource.Valid; infer_instance

/-- Model of `NasBench301SearchSpace.sample_random_architecture` (468-491) with
`load_labeled=False`: build the compact encoding, one pair of
`(input node index, op index)` tuples per intermediate node and cell
type, and install it with `set_compact`. -/
def sample_random_architecture (r : RandomSource) :
    List (ℕ × ℕ) × List (ℕ × ℕ) :=
  (List.range NUM_VERTICES).foldl
    (fun compact i =>
      let nn := r.nodesNormal i
      let nr := r.nodesReduce i
      (compact.1 ++ [(nn.1, r.opsDraw i 0), (nn.2, r.opsDraw i 1)],
       compact.2 ++ [(nr.1, r.opsDraw i 2), (nr.2, r.opsDraw i 3)]))
    ([], [])

/-! ## Concrete inputs and auxiliary definitions used in the theorems -/

/-- A concrete valid random source. -/
def sampleSourceW : RandomSource :=
  ⟨fun _ _ => 0, fun _ => (0, 1), fun _ => (0, 1)⟩

/-- The candidate operation names set by `_set_ops` (graph.py 288-321);
index 1 is the `Zero` operation. -/
def zeroOps : List String :=
  ["Identity", "Zero", "MaxPool", "AvgPool", "SepConv3", "SepConv5",
   "DilConv3", "DilConv5"]

/-- Four discrete (list-op, non-finalized) in-edges of an intermediate
node, as for node 5 of a cell. -/
def discEdges : List (ℕ × EdgeData) :=
  [(1, ⟨none, zeroOps, false, false⟩), (2, ⟨none, zeroOps, false, false⟩),
   (3, ⟨none, zeroOps, false, false⟩), (4, ⟨none, zeroOps, false, false⟩)]

/-- A benchmark oracle whose wall-clock time differs from its
validation accuracy: every accuracy query returns 90, every
`TRAIN_TIME` query returns 3600. -/
def oracleT : ℕ → Metric → ℚ → ℚ :=
  fun _ met _ => if met = .TRAIN_TIME then 3600 else 90

/-- A scheduler state with a full population about to evaluate the
architecture at position 0. -/
def shT : SHState :=
  ⟨100, 1, 2, 2, "time", 0, [⟨5, 50, 0⟩, ⟨6, 40, 0⟩], [], [], false⟩

/-- A state with integer `eta = 2 ≥ 2`, `fidelity = 1 ≥ 1`, population
size 3, and `budget_max = 1`, so the very first round transition is
already over budget. -/
def shC8 : SHState :=
  ⟨1, 1, 3, 2, "epoch", 0, [⟨1, 30, 0⟩, ⟨2, 20, 0⟩, ⟨3, 10, 0⟩], [], [], false⟩

/-- Two in-edges: an alpha-carrying one first, a finalized one second. -/
def finEdges : List (ℕ × EdgeData) :=
  [(1, ⟨some [0, 0], [], false, false⟩), (2, ⟨none, [], true, false⟩)]

/-- The model evaluated by one `new_epoch` step (lines 74-89): either a
freshly sampled architecture or the one at the position counter, with
its accuracy re-queried at the current fidelity. -/
def evalModel (oracle : ℕ → Metric → ℚ → ℚ) (sampleId : ℕ) (s : SHState) : SHModel :=
  let notFull := s.sampled_archs.length < s.number_archs
  let base : SHModel :=
    if notFull then { arch := sampleId, accuracy := 0, time := 0 }
    else s.sampled_archs.getD s.fidelity_counter default
  { base with accuracy := oracle base.arch .VAL_ACCURACY ((pyInt s.fidelity : ℤ) : ℚ) }

/-- The scheduler state reached by a `budget_type = "epoch"` step of
`new_epoch` just before the end-of-round check (lines 106-113). -/
def stateAfterEval (oracle : ℕ → Metric → ℚ → ℚ) (sampleId : ℕ) (s : SHState) :
    SHState :=
  let notFull := s.sampled_archs.length < s.number_archs
  let base : SHModel :=
    if notFull then { arch := sampleId, accuracy := 0, time := 0 }
    else s.sampled_archs.getD s.fidelity_counter default
  let acc := oracle base.arch .VAL_ACCURACY ((pyInt s.fidelity : ℤ) : ℚ)
  let m1 : SHModel := { base with accuracy := acc }
  let archs1 := if notFull then s.sampled_archs ++ [m1]
                else s.sampled_archs.set s.fidelity_counter m1
  let s1 := { s with sampled_archs := archs1 }
  let s2 := update_optimizer_stats oracle s1
  let s3 := { s2 with fidelity_counter := s2.fidelity_counter + 1 }
  { s3 with history := update_history s3.history m1 }

/-- Witness scheduler state for `new_epoch_end_of_round`. -/
def shW : SHState :=
  ⟨10, 1, 2, 2, "epoch", 1, [⟨1, 30, 0⟩, ⟨2, 20, 0⟩], [], [], false⟩

/-- Witness state for `roundTransition_iterated`: the spec's example,
`number_archs = 2`, `eta = 2`, `min_fidelity = 1`, `budget_max = 8`. -/
def shW8 : SHState :=
  ⟨8, 1, 2, 2, "epoch", 0, [⟨1, 30, 0⟩, ⟨2, 20, 0⟩], [], [], false⟩

/-- A computable strictly monotone positive function on `ℚ`, standing
in for the real exponential in witnesses. -/
def qexp (q : ℚ) : ℚ := if q < 0 then 1 / (1 - q) else q + 1

/-- Three one-shot in-edges with concrete alpha vectors. -/
def oneShotEdgesW : List (ℕ × EdgeData) :=
  [(1, ⟨some [1, 5], [], false, false⟩), (2, ⟨some [3, 0], [], false, false⟩),
   (3, ⟨some [2, 1], [], false, false⟩)]

/-! ## Lemmas about `_update_history` -/

lemma replaceFirstLower_length (l : List SHModel) (c : SHModel) :
    (replaceFirstLower l c).length = l.length := by
  induction l with
  | nil => rfl
  | cons p rest ih =>
    simp only [replaceFirstLower]
    split <;> simp [ih]

lemma replaceFirstLower_of_forall_le (l : List SHModel) (c : SHModel)
    (h : ∀ q ∈ l, c.accuracy ≤ q.accuracy) : replaceFirstLower l c = l := by
  induction l with
  | nil => rfl
  | cons p rest ih =>
    have hp : ¬ (c.accuracy > p.accuracy) := not_lt.mpr (h p (by simp))
    simp only [replaceFirstLower, if_neg hp]
    rw [ih (fun q hq => h q (by simp [hq]))]

lemma replaceFirstLower_first (pre : List SHModel) (p : SHModel)
    (post : List SHModel) (c : SHModel)
    (hpre : ∀ q ∈ pre, c.accuracy ≤ q.accuracy) (hp : p.accuracy < c.accuracy) :
    replaceFirstLower (pre ++ p :: post) c = pre ++ c :: post := by
  induction pre with
  | nil => simp [replaceFirstLower, if_pos hp]
  | cons q rest ih =>
    have hq : ¬ (c.accuracy > q.accuracy) := not_lt.mpr (hpre q (by simp))
    simp only [List.cons_append, replaceFirstLower, if_neg hq]
    exact congrArg (q :: ·) (ih (fun x hx => hpre x (by simp [hx])))

/-- C9: every call to `_update_history` keeps at most 100 entries: it
appends below capacity; at capacity it replaces exactly the first entry
whose accuracy is strictly lower than the challenger's (leaving every
other entry in place) and leaves the history unchanged when no entry
has lower accuracy. -/
theorem update_history_spec (history : List SHModel) (child : SHModel)
    (h : history.length ≤ 100) :
    (update_history history child).length ≤ 100 ∧
    (history.length < 100 → update_history history child = history ++ [child]) ∧
    (¬ history.length < 100 →
      ((∀ q ∈ history, child.accuracy ≤ q.accuracy) →
        update_history history child = history) ∧
      (∀ pre p post, history = pre ++ p :: post →
        (∀ q ∈ pre, child.accuracy ≤ q.accuracy) → p.accuracy < child.accuracy →
        update_history history child = pre ++ child :: post)) := by
  unfold update_history
  by_cases hlt : history.length < 100
  · refine ⟨?_, fun _ => by rw [if_pos hlt], fun hc => absurd hlt hc⟩
    rw [if_pos hlt]
    simp only [List.length_append, List.length_singleton]
    omega
  · refine ⟨?_, fun hc => absurd hc hlt, fun _ => ⟨?_, ?_⟩⟩
    · rw [if_neg hlt, replaceFirstLower_length]; exact h
    · intro hall
      rw [if_neg hlt, replaceFirstLower_of_forall_le history child hall]
    · intro pre p post heq hpre hp
      rw [if_neg hlt, heq, replaceFirstLower_first pre p post child hpre hp]

/-- Witness for `update_history_spec` at a concrete short history. -/
theorem update_history_spec_w :
    ([(⟨1, 5, 0⟩ : SHModel)].length ≤ 100) ∧
    ((update_history [⟨1, 5, 0⟩] ⟨2, 7, 0⟩).length ≤ 100 ∧
      ([(⟨1, 5, 0⟩ : SHModel)].length < 100 →
        update_history [⟨1, 5, 0⟩] ⟨2, 7, 0⟩ = [⟨1, 5, 0⟩] ++ [⟨2, 7, 0⟩]) ∧
      (¬ ([(⟨1, 5, 0⟩ : SHModel)].length < 100) →
        ((∀ q ∈ [(⟨1, 5, 0⟩ : SHModel)], (⟨2, 7, 0⟩ : SHModel).accuracy ≤ q.accuracy) →
          update_history [⟨1, 5, 0⟩] ⟨2, 7, 0⟩ = [⟨1, 5, 0⟩]) ∧
        (∀ pre p post, [(⟨1, 5, 0⟩ : SHModel)] = pre ++ p :: post →
          (∀ q ∈ pre, (⟨2, 7, 0⟩ : SHModel).accuracy ≤ q.accuracy) →
          p.accuracy < (⟨2, 7, 0⟩ : SHModel).accuracy →
          update_history [⟨1, 5, 0⟩] ⟨2, 7, 0⟩ = pre ++ ⟨2, 7, 0⟩ :: post))) :=
  ⟨by decide, update_history_spec [⟨1, 5, 0⟩] ⟨2, 7, 0⟩ (by decide)⟩

/-! ## Theorems about `query` -/

lemma query_some (api : DatasetApi) (metric : Metric) (epoch : ℤ) :
    query (some api) metric epoch =
      if ¬ (epoch = 0 ∨ epoch = -1 ∨ epoch = 100) then Except.error .assertionError
      else
        match metric with
        | .VAL_ACCURACY => Except.ok api.predictAcc
        | .TRAIN_TIME => Except.ok api.predictTime
        | _ => Except.ok (-1) := rfl

/-- C5 (amended): with a benchmark handle present, `query` raises the
epoch assertion exactly when the epoch is none of `0`, `-1`, `100` —
Python's `not epoch` also lets the falsy value `0` through, so `0`
passes in addition to the claimed `-1` and `100`. -/
theorem query_assertion_iff (api : DatasetApi) (metric : Metric) (epoch : ℤ) :
    query (some api) metric epoch = Except.error QueryError.assertionError ↔
      ¬ (epoch = 0 ∨ epoch = -1 ∨ epoch = 100) := by
  rw [query_some]
  by_cases h : epoch = 0 ∨ epoch = -1 ∨ epoch = 100
  · rw [if_neg (not_not_intro h)]
    cases metric <;> simp [h]
  · rw [if_pos h]
    simp [h]

/-- Counterexample to C5 as stated: `epoch = 0` is neither `-1` nor
`100`, yet the assertion passes and the query succeeds. -/
theorem query_epoch_zero_not_rejected :
    query (some ⟨90, 3600⟩) Metric.VAL_ACCURACY 0 = Except.ok 90 ∧
      (0 : ℤ) ≠ -1 ∧ (0 : ℤ) ≠ 100 :=
  ⟨rfl, by decide, by decide⟩

/-- C6: with a benchmark handle and a valid epoch, every metric other
than validation accuracy and train time yields the sentinel `-1`
without raising; without a handle, `query` raises
`NotImplementedError` for every metric and epoch. -/
theorem query_unsupported_returns_sentinel (api : DatasetApi) (metric : Metric)
    (epoch : ℤ) (he : epoch = -1 ∨ epoch = 100)
    (hv : metric ≠ Metric.VAL_ACCURACY) (ht : metric ≠ Metric.TRAIN_TIME) :
    query (some api) metric epoch = Except.ok (-1) ∧
      ∀ (metric' : Metric) (epoch' : ℤ),
        query none metric' epoch' = Except.error QueryError.notImplementedError := by
  refine ⟨?_, fun _ _ => rfl⟩
  have hcond : epoch = 0 ∨ epoch = -1 ∨ epoch = 100 := Or.inr he
  rw [query_some, if_neg (not_not_intro hcond)]
  cases metric with
  | VAL_ACCURACY => exact absurd rfl hv
  | TRAIN_TIME => exact absurd rfl ht
  | _ => rfl

/-- Witness for `query_unsupported_returns_sentinel` at
`TEST_ACCURACY`, `epoch = -1`. -/
theorem query_unsupported_returns_sentinel_w :
    ((-1 : ℤ) = -1 ∨ (-1 : ℤ) = 100) ∧
    Metric.TEST_ACCURACY ≠ Metric.VAL_ACCURACY ∧
    Metric.TEST_ACCURACY ≠ Metric.TRAIN_TIME ∧
    (query (some ⟨90, 3600⟩) Metric.TEST_ACCURACY (-1) = Except.ok (-1) ∧
      ∀ (metric' : Metric) (epoch' : ℤ),
        query none metric' epoch' = Except.error QueryError.notImplementedError) :=
  ⟨Or.inl rfl, by decide, by decide,
    query_unsupported_returns_sentinel ⟨90, 3600⟩ Metric.TEST_ACCURACY (-1)
      (Or.inl rfl) (by decide) (by decide)⟩

/-! ## Theorems about `sample_random_architecture` -/

/-- C10: any outcome of the random draws yields 8
`(input node index, op index)` pairs per cell type, the two input
indices of intermediate node `i` are distinct and below `i + 2`, and
every op index is below `NUM_OPS = 7` (so the eighth primitive, index 7,
is never sampled). -/
theorem sample_random_architecture_spec (r : RandomSource) (hr : r.Valid) :
    (sample_random_architecture r).1.length = 8 ∧
    (sample_random_architecture r).2.length = 8 ∧
    (∀ i < NUM_VERTICES,
      ∃ a oa b ob, (sample_random_architecture r).1.get? (2 * i) = some (a, oa) ∧
        (sample_random_architecture r).1.get? (2 * i + 1) = some (b, ob) ∧
        a ≠ b ∧ a < i + 2 ∧ b < i + 2) ∧
    (∀ i < NUM_VERTICES,
      ∃ a oa b ob, (sample_random_architecture r).2.get? (2 * i) = some (a, oa) ∧
        (sample_random_architecture r).2.get? (2 * i + 1) = some (b, ob) ∧
        a ≠ b ∧ a < i + 2 ∧ b < i + 2) ∧
    (∀ p ∈ (sample_random_architecture r).1, p.2 < NUM_OPS) ∧
    (∀ p ∈ (sample_random_architecture r).2, p.2 < NUM_OPS) := by
  have hc : sample_random_architecture r =
    ([((r.nodesNormal 0).1, r.opsDraw 0 0), ((r.nodesNormal 0).2, r.opsDraw 0 1),
      ((r.nodesNormal 1).1, r.opsDraw 1 0), ((r.nodesNormal 1).2, r.opsDraw 1 1),
      ((r.nodesNormal 2).1, r.opsDraw 2 0), ((r.nodesNormal 2).2, r.opsDraw 2 1),
      ((r.nodesNormal 3).1, r.opsDraw 3 0), ((r.nodesNormal 3).2, r.opsDraw 3 1)],
     [((r.nodesReduce 0).1, r.opsDraw 0 2), ((r.nodesReduce 0).2, r.opsDraw 0 3),
      ((r.nodesReduce 1).1, r.opsDraw 1 2), ((r.nodesReduce 1).2, r.opsDraw 1 3),
      ((r.nodesReduce 2).1, r.opsDraw 2 2), ((r.nodesReduce 2).2, r.opsDraw 2 3),
      ((r.nodesReduce 3).1, r.opsDraw 3 2), ((r.nodesReduce 3).2, r.opsDraw 3 3)]) := rfl
  rw [hc]
  refine ⟨rfl, rfl, ?_, ?_, ?_, ?_⟩
  · intro i hi
    simp only [NUM_VERTICES] at hi
    interval_cases i
    · exact ⟨_, _, _, _, rfl, rfl, (hr 0 (by decide)).2.2.2.1,
        (hr 0 (by decide)).2.1, (hr 0 (by decide)).2.2.1⟩
    · exact ⟨_, _, _, _, rfl, rfl, (hr 1 (by decide)).2.2.2.1,
        (hr 1 (by decide)).2.1, (hr 1 (by decide)).2.2.1⟩
    · exact ⟨_, _, _, _, rfl, rfl, (hr 2 (by decide)).2.2.2.1,
        (hr 2 (by decide)).2.1, (hr 2 (by decide)).2.2.1⟩
    · exact ⟨_, _, _, _, rfl, rfl, (hr 3 (by decide)).2.2.2.1,
        (hr 3 (by decide)).2.1, (hr 3 (by decide)).2.2.1⟩
  · intro i hi
    simp only [NUM_VERTICES] at hi
    interval_cases i
    · exact ⟨_, _, _, _, rfl, rfl, (hr 0 (by decide)).2.2.2.2.2.2,
        (hr 0 (by decide)).2.2.2.2.1, (hr 0 (by decide)).2.2.2.2.2.1⟩
    · exact ⟨_, _, _, _, rfl, rfl, (hr 1 (by decide)).2.2.2.2.2.2,
        (hr 1 (by decide)).2.2.2.2.1, (hr 1 (by decide)).2.2.2.2.2.1⟩
    · exact ⟨_, _, _, _, rfl, rfl, (hr 2 (by decide)).2.2.2.2.2.2,
        (hr 2 (by decide)).2.2.2.2.1, (hr 2 (by decide)).2.2.2.2.2.1⟩
    · exact ⟨_, _, _, _, rfl, rfl, (hr 3 (by decide)).2.2.2.2.2.2,
        (hr 3 (by decide)).2.2.2.2.1, (hr 3 (by decide)).2.2.2.2.2.1⟩
  · intro p hp
    simp only [List.mem_cons, List.not_mem_nil, or_false] at hp
    rcases hp with rfl | rfl | rfl | rfl | rfl | rfl | rfl | rfl
    · exact (hr 0 (by decide)).1 0 (by decide)
    · exact (hr 0 (by decide)).1 1 (by decide)
    · exact (hr 1 (by decide)).1 0 (by decide)
    · exact (hr 1 (by decide)).1 1 (by decide)
    · exact (hr 2 (by decide)).1 0 (by decide)
    · exact (hr 2 (by decide)).1 1 (by decide)
    · exact (hr 3 (by decide)).1 0 (by decide)
    · exact (hr 3 (by decide)).1 1 (by decide)
  · intro p hp
    simp only [List.mem_cons, List.not_mem_nil, or_false] at hp
    rcases hp with rfl | rfl | rfl | rfl | rfl | rfl | rfl | rfl
    · exact (hr 0 (by decide)).1 2 (by decide)
    · exact (hr 0 (by decide)).1 3 (by decide)
    · exact (hr 1 (by decide)).1 2 (by decide)
    · exact (hr 1 (by decide)).1 3 (by decide)
    · exact (hr 2 (by decide)).1 2 (by decide)
    · exact (hr 2 (by decide)).1 3 (by decide)
    · exact (hr 3 (by decide)).1 2 (by decide)
    · exact (hr 3 (by decide)).1 3 (by decide)

/-- Witness for `sample_random_architecture_spec`. -/
theorem sample_random_architecture_spec_w :
    RandomSource.Valid sampleSourceW ∧
    ((sample_random_architecture sampleSourceW).1.length = 8 ∧
     (sample_random_architecture sampleSourceW).2.length = 8 ∧
     (∀ i < NUM_VERTICES,
       ∃ a oa b ob,
         (sample_random_architecture sampleSourceW).1.get? (2 * i) = some (a, oa) ∧
         (sample_random_architecture sampleSourceW).1.get? (2 * i + 1) = some (b, ob) ∧
         a ≠ b ∧ a < i + 2 ∧ b < i + 2) ∧
     (∀ i < NUM_VERTICES,
       ∃ a oa b ob,
         (sample_random_architecture sampleSourceW).2.get? (2 * i) = some (a, oa) ∧
         (sample_random_architecture sampleSourceW).2.get? (2 * i + 1) = some (b, ob) ∧
         a ≠ b ∧ a < i + 2 ∧ b < i + 2) ∧
     (∀ p ∈ (sample_random_architecture sampleSourceW).1, p.2 < NUM_OPS) ∧
     (∀ p ∈ (sample_random_architecture sampleSourceW).2, p.2 < NUM_OPS)) :=
  ⟨by decide, sample_random_architecture_spec sampleSourceW (by decide)⟩

/-! ## Evaluation of the discrete truncation bug (C1) -/

/-- C1 failing input: with 4 non-finalized discrete in-edges and the two
`random.randint` draws both landing on index 0, the same edge is
deleted twice and 3 edges survive instead of 2. -/
theorem truncate_discrete_can_leave_three :
    (∀ p ∈ discEdges, p.2.final = false ∧ p.2.alpha = none) ∧
    2 ≤ discEdges.length ∧
    ((truncate_input_edges (fun q => q + 1) (fun _ => 0) discEdges).filter
        (fun p => !p.2.deleted)).length = 3 := by decide

/-! ## Evaluation of the `new_epoch` budget (C3) -/

/-- C3 failing input: with `budget_type = "time"` the returned budget is
the result of a second `VAL_ACCURACY` query (90), not the benchmark's
wall-clock cost (3600); the `"epoch"` and error branches behave as
claimed. -/
theorem new_epoch_time_budget_is_val_accuracy :
    (new_epoch oracleT 7 shT).toOption.map Prod.snd = some 90 ∧
    oracleT 5 Metric.TRAIN_TIME 1 = 3600 ∧ (90 : ℚ) ≠ 3600 ∧
    (new_epoch oracleT 7 { shT with budget_type := "epoch" }).toOption.map Prod.snd =
      some 1 ∧
    new_epoch oracleT 7 { shT with budget_type := "steps" } =
      Except.error "budget time should be time or epoch" :=
  ⟨rfl, rfl, by decide, rfl, rfl⟩

/-! ## Counterexample to the unconditional population decrease (C8) -/

/-- Counterexample to C8 as stated: at an over-budget transition the
population is not truncated — it neither strictly decreases nor equals
1 (and the claimed `log_eta(budget_max/min_fidelity) = 0` round bound
fails, since `end` only becomes true after this first transition). -/
theorem roundTransition_over_budget_keeps_population :
    shC8.eta = ((2 : ℕ) : ℚ) ∧ shC8.fidelity = ((1 : ℕ) : ℚ) ∧
    shC8.sampled_archs.length = 3 ∧ shC8.end_ = false ∧
    (roundTransition shC8).sampled_archs.length = 3 ∧
    (roundTransition shC8).end_ = true ∧
    ¬ ((roundTransition shC8).sampled_archs.length < shC8.sampled_archs.length ∨
       (roundTransition shC8).sampled_archs.length = 1) := by
  have hcond : shC8.budget_max < ((⌊shC8.eta * shC8.fidelity⌋ : ℤ) : ℚ) := by
    norm_num [shC8]
  have hrt : roundTransition shC8 =
      { shC8 with fidelity := ((⌊shC8.eta * shC8.fidelity⌋ : ℤ) : ℚ),
                  sampled_archs := sortByAccDesc shC8.sampled_archs, end_ := true,
                  number_archs := (sortByAccDesc shC8.sampled_archs).length,
                  fidelity_counter := 0 } := by
    simp only [roundTransition]
    rw [if_pos hcond]
  have hlen : (sortByAccDesc shC8.sampled_archs).length = 3 := by
    unfold sortByAccDesc
    rw [(List.perm_insertionSort _ _).length_eq]
    rfl
  have hL : (roundTransition shC8).sampled_archs.length = 3 := by rw [hrt]; exact hlen
  have hE : (roundTransition shC8).end_ = true := by rw [hrt]
  exact ⟨by norm_num [shC8], by norm_num [shC8], rfl, rfl, hL, hE,
    by rw [hL]; decide⟩

/-! ## Counterexample to the finalized-edge frame property (C7) -/

/-- Counterexample to C7 as stated: the node has a finalized incoming
edge, yet truncation mutates the alpha vector of the edge enumerated
before it (its `Zero` weight becomes `-inf`). -/
theorem truncate_mutates_before_finalized :
    (∃ p ∈ finEdges, p.2.final = true) ∧
    ((truncate_input_edges (fun q => q + 1) (fun _ => 0) finEdges).headD
        default).2.alpha = some [0, ⊥] ∧
    (finEdges.headD default).2.alpha = some [0, 0] ∧
    some [(0 : WithBot ℚ), ⊥] ≠ some [(0 : WithBot ℚ), 0] := by decide

/-! ## The end-of-round behaviour of `new_epoch` (C2) -/

@[simp] lemma update_optimizer_stats_sampled_archs (o : ℕ → Metric → ℚ → ℚ)
    (t : SHState) : (update_optimizer_stats o t).sampled_archs = t.sampled_archs := by
  unfold update_optimizer_stats; split <;> rfl

@[simp] lemma update_optimizer_stats_fidelity_counter (o : ℕ → Metric → ℚ → ℚ)
    (t : SHState) :
    (update_optimizer_stats o t).fidelity_counter = t.fidelity_counter := by
  unfold update_optimizer_stats; split <;> rfl

@[simp] lemma update_optimizer_stats_number_archs (o : ℕ → Metric → ℚ → ℚ)
    (t : SHState) : (update_optimizer_stats o t).number_archs = t.number_archs := by
  unfold update_optimizer_stats; split <;> rfl

@[simp] lemma update_optimizer_stats_eta (o : ℕ → Metric → ℚ → ℚ)
    (t : SHState) : (update_optimizer_stats o t).eta = t.eta := by
  unfold update_optimizer_stats; split <;> rfl

@[simp] lemma update_optimizer_stats_fidelity (o : ℕ → Metric → ℚ → ℚ)
    (t : SHState) : (update_optimizer_stats o t).fidelity = t.fidelity := by
  unfold update_optimizer_stats; split <;> rfl

@[simp] lemma update_optimizer_stats_budget_max (o : ℕ → Metric → ℚ → ℚ)
    (t : SHState) : (update_optimizer_stats o t).budget_max = t.budget_max := by
  unfold update_optimizer_stats; split <;> rfl

@[simp] lemma update_optimizer_stats_budget_type (o : ℕ → Metric → ℚ → ℚ)
    (t : SHState) : (update_optimizer_stats o t).budget_type = t.budget_type := by
  unfold update_optimizer_stats; split <;> rfl

@[simp] lemma update_optimizer_stats_end (o : ℕ → Metric → ℚ → ℚ)
    (t : SHState) : (update_optimizer_stats o t).end_ = t.end_ := by
  unfold update_optimizer_stats; split <;> rfl

@[simp] lemma update_optimizer_stats_history (o : ℕ → Metric → ℚ → ℚ)
    (t : SHState) : (update_optimizer_stats o t).history = t.history := by
  unfold update_optimizer_stats; split <;> rfl

lemma new_epoch_budget_epoch (oracle : ℕ → Metric → ℚ → ℚ) (sampleId : ℕ)
    (s : SHState) (hbt : s.budget_type = "epoch") :
    new_epoch oracle sampleId s = Except.ok
      (if (stateAfterEval oracle sampleId s).fidelity_counter =
            (stateAfterEval oracle sampleId s).number_archs
       then roundTransition (stateAfterEval oracle sampleId s)
       else stateAfterEval oracle sampleId s, 1) := by
  unfold new_epoch
  rw [if_neg (show ¬ (s.budget_type = "time") by rw [hbt]; decide), if_pos hbt]
  rfl

lemma stateAfterEval_fields (oracle : ℕ → Metric → ℚ → ℚ) (sampleId : ℕ)
    (s : SHState) (hfull : ¬ s.sampled_archs.length < s.number_archs) :
    (stateAfterEval oracle sampleId s).sampled_archs =
      s.sampled_archs.set s.fidelity_counter (evalModel oracle sampleId s) ∧
    (stateAfterEval oracle sampleId s).fidelity_counter = s.fidelity_counter + 1 ∧
    (stateAfterEval oracle sampleId s).number_archs = s.number_archs ∧
    (stateAfterEval oracle sampleId s).eta = s.eta ∧
    (stateAfterEval oracle sampleId s).fidelity = s.fidelity ∧
    (stateAfterEval oracle sampleId s).budget_max = s.budget_max ∧
    (stateAfterEval oracle sampleId s).end_ = s.end_ := by
  refine ⟨?_, ?_, ?_, ?_, ?_, ?_, ?_⟩ <;>
    simp [stateAfterEval, evalModel, if_neg hfull]

/-- Dissection of the end-of-round block: the recomputed fidelity, the
reset counter, the invariant `number_archs = len(sampled_archs)`, and
the three branches. -/
lemma roundTransition_d (t : SHState) :
    (roundTransition t).fidelity = ((⌊t.eta * t.fidelity⌋ : ℤ) : ℚ) ∧
    (roundTransition t).fidelity_counter = 0 ∧
    (roundTransition t).number_archs = (roundTransition t).sampled_archs.length ∧
    (t.budget_max < ((⌊t.eta * t.fidelity⌋ : ℤ) : ℚ) →
      (roundTransition t).end_ = true ∧
      (roundTransition t).sampled_archs = sortByAccDesc t.sampled_archs) ∧
    (¬ t.budget_max < ((⌊t.eta * t.fidelity⌋ : ℤ) : ℚ) →
      ⌊(t.number_archs : ℚ) / t.eta⌋ ≠ 0 →
      (roundTransition t).end_ = t.end_ ∧
      (roundTransition t).sampled_archs =
        (sortByAccDesc t.sampled_archs).take (⌊(t.number_archs : ℚ) / t.eta⌋).toNat) ∧
    (¬ t.budget_max < ((⌊t.eta * t.fidelity⌋ : ℤ) : ℚ) →
      ⌊(t.number_archs : ℚ) / t.eta⌋ = 0 →
      (roundTransition t).end_ = true ∧
      (roundTransition t).sampled_archs =
        [(sortByAccDesc t.sampled_archs).headD default]) := by
  unfold roundTransition
  by_cases h1 : t.budget_max < ((⌊t.eta * t.fidelity⌋ : ℤ) : ℚ)
  · rw [if_pos h1]
    exact ⟨rfl, rfl, rfl, fun _ => ⟨rfl, rfl⟩, fun hc _ => absurd h1 hc,
      fun hc _ => absurd h1 hc⟩
  · rw [if_neg h1]
    by_cases h2 : ⌊(t.number_archs : ℚ) / t.eta⌋ = 0
    · rw [if_neg (not_not_intro h2)]
      exact ⟨rfl, rfl, rfl, fun hc => absurd hc h1, fun _ hc => absurd h2 hc,
        fun _ _ => ⟨rfl, rfl⟩⟩
    · rw [if_pos h2]
      exact ⟨rfl, rfl, rfl, fun hc => absurd hc h1, fun _ _ => ⟨rfl, rfl⟩,
        fun _ hc => absurd hc h2⟩

lemma sortByAccDesc_perm (l : List SHModel) : (sortByAccDesc l).Perm l :=
  List.perm_insertionSort _ l

lemma sortByAccDesc_sorted (l : List SHModel) :
    List.Sorted (keyRel SHModel.accuracy) (sortByAccDesc l) :=
  List.sorted_insertionSort _ l

lemma sortByAccDesc_headD_max (l : List SHModel) :
    ∀ m ∈ l, m.accuracy ≤ ((sortByAccDesc l).headD default).accuracy := by
  intro m hm
  have hmem : m ∈ sortByAccDesc l := ((sortByAccDesc_perm l).mem_iff).mpr hm
  rcases hs : sortByAccDesc l with _ | ⟨h, tl⟩
  · rw [hs] at hmem; cases hmem
  · rw [hs] at hmem
    have hsort := sortByAccDesc_sorted l
    rw [hs] at hsort
    rcases List.mem_cons.mp hmem with rfl | hmt
    · exact le_refl _
    · exact List.rel_of_sorted_cons hsort m hmt

/-- C2: when the incremented position counter reaches `number_archs`, a
`new_epoch` step sorts the population in descending accuracy order,
computes the next fidelity `floor(eta * fidelity)`, terminates without
truncating when it exceeds `budget_max`, otherwise truncates to the top
`floor(number_archs / eta)` entries when that is positive and otherwise
keeps only the single best entry and terminates; in all cases
`number_archs` becomes the new population length, the counter resets to
0, and the stored fidelity is the computed next fidelity. -/
theorem new_epoch_end_of_round (oracle : ℕ → Metric → ℚ → ℚ) (sampleId : ℕ)
    (s : SHState) (hbt : s.budget_type = "epoch")
    (hlen : s.sampled_archs.length = s.number_archs)
    (hcnt : s.fidelity_counter + 1 = s.number_archs)
    (heta : 0 < s.eta) (hend : s.end_ = false) :
    ∃ m2 s', new_epoch oracle sampleId s = Except.ok (s', 1) ∧
      (sortByAccDesc (s.sampled_archs.set s.fidelity_counter m2)).Perm
        (s.sampled_archs.set s.fidelity_counter m2) ∧
      List.Sorted (keyRel SHModel.accuracy)
        (sortByAccDesc (s.sampled_archs.set s.fidelity_counter m2)) ∧
      s'.fidelity = ((⌊s.eta * s.fidelity⌋ : ℤ) : ℚ) ∧
      s'.fidelity_counter = 0 ∧
      s'.number_archs = s'.sampled_archs.length ∧
      (s.budget_max < ((⌊s.eta * s.fidelity⌋ : ℤ) : ℚ) →
        s'.end_ = true ∧
        s'.sampled_archs = sortByAccDesc (s.sampled_archs.set s.fidelity_counter m2)) ∧
      (¬ s.budget_max < ((⌊s.eta * s.fidelity⌋ : ℤ) : ℚ) →
        0 < ⌊(s.number_archs : ℚ) / s.eta⌋ →
        s'.end_ = false ∧
        s'.sampled_archs = (sortByAccDesc (s.sampled_archs.set s.fidelity_counter
            m2)).take (⌊(s.number_archs : ℚ) / s.eta⌋).toNat) ∧
      (¬ s.budget_max < ((⌊s.eta * s.fidelity⌋ : ℤ) : ℚ) →
        ⌊(s.number_archs : ℚ) / s.eta⌋ = 0 →
        s'.end_ = true ∧
        s'.sampled_archs =
          [(sortByAccDesc (s.sampled_archs.set s.fidelity_counter m2)).headD default] ∧
        ∀ m ∈ s.sampled_archs.set s.fidelity_counter m2,
          m.accuracy ≤ ((sortByAccDesc (s.sampled_archs.set s.fidelity_counter
              m2)).headD default).accuracy) := by
  have hfull : ¬ s.sampled_archs.length < s.number_archs := by omega
  obtain ⟨hpop, hc, hn, he, hf, hb, hez⟩ :=
    stateAfterEval_fields oracle sampleId s hfull
  set t := stateAfterEval oracle sampleId s with ht
  have hif : t.fidelity_counter = t.number_archs := by rw [hc, hn]; exact hcnt
  have hne := new_epoch_budget_epoch oracle sampleId s hbt
  rw [← ht, if_pos hif] at hne
  obtain ⟨hd1, hd2, hd3, hd4, hd5, hd6⟩ := roundTransition_d t
  rw [he, hf] at hd1
  rw [hb, he, hf, hpop] at hd4
  rw [hb, he, hf, hn, hpop] at hd5
  rw [hb, he, hf, hn, hpop] at hd6
  refine ⟨evalModel oracle sampleId s, roundTransition t, hne,
    sortByAccDesc_perm _, sortByAccDesc_sorted _, hd1, hd2, hd3, ?_, ?_, ?_⟩
  · exact hd4
  · intro hc1 hc2
    obtain ⟨hE, hP⟩ := hd5 hc1 (by omega)
    rw [hez, hend] at hE
    exact ⟨hE, hP⟩
  · intro hc1 hc2
    obtain ⟨hE, hP⟩ := hd6 hc1 hc2
    exact ⟨hE, hP, sortByAccDesc_headD_max _⟩

/-- Witness for `new_epoch_end_of_round` at a concrete state. -/
theorem new_epoch_end_of_round_w :
    shW.budget_type = "epoch" ∧
    shW.sampled_archs.length = shW.number_archs ∧
    shW.fidelity_counter + 1 = shW.number_archs ∧
    0 < shW.eta ∧ shW.end_ = false ∧
    (∃ m2 s', new_epoch oracleT 9 shW = Except.ok (s', 1) ∧
      (sortByAccDesc (shW.sampled_archs.set shW.fidelity_counter m2)).Perm
        (shW.sampled_archs.set shW.fidelity_counter m2) ∧
      List.Sorted (keyRel SHModel.accuracy)
        (sortByAccDesc (shW.sampled_archs.set shW.fidelity_counter m2)) ∧
      s'.fidelity = ((⌊shW.eta * shW.fidelity⌋ : ℤ) : ℚ) ∧
      s'.fidelity_counter = 0 ∧
      s'.number_archs = s'.sampled_archs.length ∧
      (shW.budget_max < ((⌊shW.eta * shW.fidelity⌋ : ℤ) : ℚ) →
        s'.end_ = true ∧
        s'.sampled_archs =
          sortByAccDesc (shW.sampled_archs.set shW.fidelity_counter m2)) ∧
      (¬ shW.budget_max < ((⌊shW.eta * shW.fidelity⌋ : ℤ) : ℚ) →
        0 < ⌊(shW.number_archs : ℚ) / shW.eta⌋ →
        s'.end_ = false ∧
        s'.sampled_archs = (sortByAccDesc (shW.sampled_archs.set shW.fidelity_counter
            m2)).take (⌊(shW.number_archs : ℚ) / shW.eta⌋).toNat) ∧
      (¬ shW.budget_max < ((⌊shW.eta * shW.fidelity⌋ : ℤ) : ℚ) →
        ⌊(shW.number_archs : ℚ) / shW.eta⌋ = 0 →
        s'.end_ = true ∧
        s'.sampled_archs =
          [(sortByAccDesc (shW.sampled_archs.set shW.fidelity_counter m2)).headD
            default] ∧
        ∀ m ∈ shW.sampled_archs.set shW.fidelity_counter m2,
          m.accuracy ≤ ((sortByAccDesc (shW.sampled_archs.set shW.fidelity_counter
              m2)).headD default).accuracy)) :=
  ⟨rfl, rfl, rfl, by decide, rfl,
    new_epoch_end_of_round oracleT 9 shW rfl rfl rfl (by decide) rfl⟩

/-! ## Iterated round transitions (C8) -/

lemma sortByAccDesc_length (l : List SHModel) :
    (sortByAccDesc l).length = l.length :=
  (sortByAccDesc_perm l).length_eq

lemma roundTransition_const (t : SHState) :
    (roundTransition t).eta = t.eta ∧ (roundTransition t).budget_max = t.budget_max := by
  unfold roundTransition
  by_cases h1 : t.budget_max < ((⌊t.eta * t.fidelity⌋ : ℤ) : ℚ)
  · rw [if_pos h1]; exact ⟨rfl, rfl⟩
  · rw [if_neg h1]
    by_cases h2 : (⌊(t.number_archs : ℚ) / t.eta⌋ : ℤ) ≠ 0
    · rw [if_pos h2]; exact ⟨rfl, rfl⟩
    · rw [if_neg h2]; exact ⟨rfl, rfl⟩

lemma floor_natCast_mul (k m : ℕ) :
    (⌊((k : ℕ) : ℚ) * ((m : ℕ) : ℚ)⌋ : ℤ) = ((k * m : ℕ) : ℤ) := by
  have h1 : ((k : ℕ) : ℚ) * ((m : ℕ) : ℚ) = (((k * m : ℕ)) : ℚ) := by push_cast; ring
  rw [h1, Int.floor_natCast]

lemma floor_natCast_div (n k : ℕ) :
    (⌊((n : ℕ) : ℚ) / ((k : ℕ) : ℚ)⌋ : ℤ) = ((n / k : ℕ) : ℤ) := by
  have h1 : ((n : ℕ) : ℚ) = (((n : ℕ) : ℤ) : ℚ) := by push_cast; ring
  rw [h1, Rat.floor_intCast_div_natCast]
  exact (Int.natCast_div n k).symm

/-- One end-of-round transition with integer `eta = k` and integer
fidelity `m`: the new fidelity is exactly `k * m`, `eta` and
`budget_max` are unchanged, the population stays nonempty with
`number_archs` tracking its length, the population shrinks strictly or
to exactly 1 except at an over-budget transition, and an over-budget
transition sets the end flag. -/
lemma roundTransition_step_inv (k m : ℕ) (hk2 : 2 ≤ k) (t : SHState)
    (hk : t.eta = ((k : ℕ) : ℚ)) (hf : t.fidelity = ((m : ℕ) : ℚ))
    (hn : t.number_archs = t.sampled_archs.length)
    (hn1 : 1 ≤ t.sampled_archs.length) :
    (roundTransition t).eta = ((k : ℕ) : ℚ) ∧
    (roundTransition t).fidelity = ((k * m : ℕ) : ℚ) ∧
    (roundTransition t).budget_max = t.budget_max ∧
    (roundTransition t).number_archs = (roundTransition t).sampled_archs.length ∧
    1 ≤ (roundTransition t).sampled_archs.length ∧
    ((t.budget_max < ((k * m : ℕ) : ℚ) ∧ (roundTransition t).end_ = true ∧
        (roundTransition t).sampled_archs.length = t.sampled_archs.length) ∨
      (roundTransition t).sampled_archs.length < t.sampled_archs.length ∨
      (roundTransition t).sampled_archs.length = 1) ∧
    (t.budget_max < ((k * m : ℕ) : ℚ) → (roundTransition t).end_ = true) := by
  obtain ⟨hceta, hcbm⟩ := roundTransition_const t
  obtain ⟨hd1, _, hd3, hd4, hd5, hd6⟩ := roundTransition_d t
  have hfl : (⌊t.eta * t.fidelity⌋ : ℤ) = ((k * m : ℕ) : ℤ) := by
    rw [hk, hf]; exact floor_natCast_mul k m
  have hkeep : (⌊(t.number_archs : ℚ) / t.eta⌋ : ℤ) =
      ((t.sampled_archs.length / k : ℕ) : ℤ) := by
    rw [hk, hn]; exact floor_natCast_div t.sampled_archs.length k
  rw [hfl] at hd1 hd4 hd5 hd6
  rw [hkeep] at hd5 hd6
  have hfid : (roundTransition t).fidelity = ((k * m : ℕ) : ℚ) := by
    rw [hd1]; push_cast; ring
  refine ⟨hceta ▸ hk, hfid, hcbm, hd3, ?_, ?_, ?_⟩
  · -- the population stays nonempty
    by_cases h1 : t.budget_max < (((k * m : ℕ) : ℤ) : ℚ)
    · obtain ⟨_, hpop⟩ := hd4 h1
      rw [hpop, sortByAccDesc_length]; exact hn1
    · by_cases h2 : ((t.sampled_archs.length / k : ℕ) : ℤ) = 0
      · obtain ⟨_, hpop⟩ := hd6 h1 h2
        rw [hpop]; simp
      · obtain ⟨_, hpop⟩ := hd5 h1 h2
        rw [hpop]
        have hq : 1 ≤ t.sampled_archs.length / k := by
          rcases Nat.eq_zero_or_pos (t.sampled_archs.length / k) with h | h
          · exact absurd (by exact_mod_cast h) h2
          · exact h
        rw [List.length_take, sortByAccDesc_length]
        have : ((t.sampled_archs.length / k : ℕ) : ℤ).toNat =
            t.sampled_archs.length / k := Int.toNat_natCast _
        rw [this]
        omega
  · -- the population shrinks, reaches 1, or the round is over budget
    by_cases h1 : t.budget_max < (((k * m : ℕ) : ℤ) : ℚ)
    · obtain ⟨hE, hpop⟩ := hd4 h1
      refine Or.inl ⟨by exact_mod_cast h1, hE, ?_⟩
      rw [hpop, sortByAccDesc_length]
    · by_cases h2 : ((t.sampled_archs.length / k : ℕ) : ℤ) = 0
      · obtain ⟨_, hpop⟩ := hd6 h1 h2
        exact Or.inr (Or.inr (by rw [hpop]; rfl))
      · obtain ⟨_, hpop⟩ := hd5 h1 h2
        refine Or.inr (Or.inl ?_)
        rw [hpop, List.length_take, sortByAccDesc_length, Int.toNat_natCast]
        have hdiv : t.sampled_archs.length / k < t.sampled_archs.length :=
          Nat.div_lt_self (by omega) (by omega)
        omega
  · intro h1
    exact (hd4 (by exact_mod_cast h1)).1

/-- Invariants along iterated round transitions. -/
lemma roundTransition_iter_inv (k f : ℕ) (hk2 : 2 ≤ k) (s : SHState)
    (hk : s.eta = ((k : ℕ) : ℚ)) (hf : s.fidelity = ((f : ℕ) : ℚ))
    (hn : s.number_archs = s.sampled_archs.length)
    (hn1 : 1 ≤ s.sampled_archs.length) :
    ∀ i : ℕ, (roundTransition^[i] s).eta = ((k : ℕ) : ℚ) ∧
      (roundTransition^[i] s).fidelity = ((k ^ i * f : ℕ) : ℚ) ∧
      (roundTransition^[i] s).budget_max = s.budget_max ∧
      (roundTransition^[i] s).number_archs =
        (roundTransition^[i] s).sampled_archs.length ∧
      1 ≤ (roundTransition^[i] s).sampled_archs.length := by
  intro i
  induction i with
  | zero => exact ⟨hk, by rw [Function.iterate_zero_apply, hf]; norm_num, rfl, hn, hn1⟩
  | succ j ih =>
    obtain ⟨ik, ifid, ibm, inum, ilen⟩ := ih
    obtain ⟨sk, sfid, sbm, snum, slen, _, _⟩ :=
      roundTransition_step_inv k (k ^ j * f) hk2 _ ik ifid inum ilen
    rw [Function.iterate_succ_apply']
    refine ⟨sk, ?_, by rw [sbm, ibm], snum, slen⟩
    rw [sfid]
    congr 1
    ring

/-- C8 (amended): with integer `eta = k ≥ 2` and integer starting
fidelity `f ≥ 1`, the fidelity strictly increases at every round
transition; the population strictly shrinks or reaches exactly 1 at
every transition except an over-budget one, which leaves it untouched
while setting the end flag; and after any `r ≥ 1` transitions with
`k ^ r * f > budget_max` — in particular after
`floor(log_k(budget_max / f)) + 1` transitions — the end flag is set. -/
theorem roundTransition_iterated (k f : ℕ) (hk2 : 2 ≤ k) (hf1 : 1 ≤ f)
    (s : SHState) (hk : s.eta = ((k : ℕ) : ℚ)) (hf : s.fidelity = ((f : ℕ) : ℚ))
    (hn : s.number_archs = s.sampled_archs.length)
    (hn1 : 1 ≤ s.sampled_archs.length) :
    (∀ i : ℕ, (roundTransition^[i] s).fidelity < (roundTransition^[i + 1] s).fidelity) ∧
    (∀ i : ℕ,
      (roundTransition^[i + 1] s).sampled_archs.length <
          (roundTransition^[i] s).sampled_archs.length ∨
        (roundTransition^[i + 1] s).sampled_archs.length = 1 ∨
        (s.budget_max < (roundTransition^[i + 1] s).fidelity ∧
          (roundTransition^[i + 1] s).sampled_archs.length =
            (roundTransition^[i] s).sampled_archs.length ∧
          (roundTransition^[i + 1] s).end_ = true)) ∧
    (∀ r : ℕ, 1 ≤ r → s.budget_max < ((k ^ r * f : ℕ) : ℚ) →
      (roundTransition^[r] s).end_ = true) := by
  have hinv := roundTransition_iter_inv k f hk2 s hk hf hn hn1
  have hpow : ∀ i : ℕ, k ^ i * f < k ^ (i + 1) * f := by
    intro i
    have hp : 0 < k ^ i * f := by positivity
    calc k ^ i * f < 2 * (k ^ i * f) := by omega
    _ ≤ k * (k ^ i * f) := Nat.mul_le_mul_right _ hk2
    _ = k ^ (i + 1) * f := by ring
  refine ⟨?_, ?_, ?_⟩
  · intro i
    obtain ⟨_, ifid, _, _, _⟩ := hinv i
    obtain ⟨_, ifid', _, _, _⟩ := hinv (i + 1)
    rw [ifid, ifid']
    exact_mod_cast hpow i
  · intro i
    obtain ⟨ik, ifid, ibm, inum, ilen⟩ := hinv i
    obtain ⟨_, _, _, _, _, hshrink, _⟩ :=
      roundTransition_step_inv k (k ^ i * f) hk2 _ ik ifid inum ilen
    obtain ⟨_, ifid', _, _, _⟩ := hinv (i + 1)
    rw [Function.iterate_succ_apply']
    rcases hshrink with ⟨hob, hE, hlen⟩ | h | h
    · refine Or.inr (Or.inr ⟨?_, hlen, hE⟩)
      rw [Function.iterate_succ_apply'] at ifid'
      rw [ifid']
      rw [← ibm]
      have : (k * (k ^ i * f) : ℕ) = (k ^ (i + 1) * f : ℕ) := by ring
      rw [← this]
      exact hob
    · exact Or.inl h
    · exact Or.inr (Or.inl h)
  · intro r hr hob
    obtain ⟨j, rfl⟩ : ∃ j, r = j + 1 := ⟨r - 1, by omega⟩
    obtain ⟨ik, ifid, ibm, inum, ilen⟩ := hinv j
    obtain ⟨_, _, _, _, _, _, hend⟩ :=
      roundTransition_step_inv k (k ^ j * f) hk2 _ ik ifid inum ilen
    rw [Function.iterate_succ_apply']
    apply hend
    rw [ibm]
    have : (k * (k ^ j * f) : ℕ) = (k ^ (j + 1) * f : ℕ) := by ring
    rw [this]
    exact hob

/-- Witness for `roundTransition_iterated`. -/
theorem roundTransition_iterated_w :
    (2 ≤ 2 ∧ 1 ≤ 1 ∧ shW8.eta = ((2 : ℕ) : ℚ) ∧ shW8.fidelity = ((1 : ℕ) : ℚ) ∧
      shW8.number_archs = shW8.sampled_archs.length ∧
      1 ≤ shW8.sampled_archs.length) ∧
    ((∀ i : ℕ, (roundTransition^[i] shW8).fidelity <
        (roundTransition^[i + 1] shW8).fidelity) ∧
     (∀ i : ℕ,
       (roundTransition^[i + 1] shW8).sampled_archs.length <
           (roundTransition^[i] shW8).sampled_archs.length ∨
         (roundTransition^[i + 1] shW8).sampled_archs.length = 1 ∨
         (shW8.budget_max < (roundTransition^[i + 1] shW8).fidelity ∧
           (roundTransition^[i + 1] shW8).sampled_archs.length =
             (roundTransition^[i] shW8).sampled_archs.length ∧
           (roundTransition^[i + 1] shW8).end_ = true)) ∧
     (∀ r : ℕ, 1 ≤ r → shW8.budget_max < ((2 ^ r * 1 : ℕ) : ℚ) →
       (roundTransition^[r] shW8).end_ = true)) :=
  ⟨⟨by decide, by decide, by decide, by decide, rfl, by decide⟩,
    roundTransition_iterated 2 1 (by decide) (by decide) shW8 (by decide) (by decide)
      rfl (by decide)⟩

/-! ## Truncation at a node with a finalized in-edge (C7) -/

lemma oneShotMutate_with_final (l : List (ℕ × EdgeData))
    (hfin : ∃ p ∈ l, p.2.final = true) :
    oneShotMutate l =
      ((l.take (l.findIdx (fun p => p.2.final))).map
          (fun p => (p.1, setAlphaInf p.2)) ++
        l.drop (l.findIdx (fun p => p.2.final)), true) := by
  induction l with
  | nil => obtain ⟨p, hp, _⟩ := hfin; cases hp
  | cons a l ih =>
    obtain ⟨u, d⟩ := a
    by_cases ha : d.final = true
    · simp only [oneShotMutate, if_pos ha, List.findIdx_cons]
      rw [ha]
      simp
    · have hfin' : ∃ p ∈ l, p.2.final = true := by
        obtain ⟨p, hp, hf⟩ := hfin
        rcases List.mem_cons.mp hp with rfl | hmem
        · exact absurd hf ha
        · exact ⟨p, hmem, hf⟩
      simp only [oneShotMutate, if_neg ha, ih hfin', List.findIdx_cons]
      rw [Bool.of_not_eq_true ha]
      simp

/-- C7 (amended): at a node with at least one finalized incoming edge,
truncation deletes no edge and modifies no candidate-operation list;
every edge from the first finalized one onwards is returned unchanged,
while each earlier edge has the `Zero` entry of its alpha vector forced
to `-inf`.  In particular, when the first enumerated edge is finalized
(as for cell output nodes, whose incoming edges are all finalized), the
whole edge list is completely unchanged. -/
theorem truncate_with_final_edges (e : ℚ → ℚ) (draws : ℕ → ℕ)
    (edges : List (ℕ × EdgeData))
    (hfin : ∃ p ∈ edges, p.2.final = true) :
    (2 ≤ edges.length →
      truncate_input_edges e draws edges =
        (edges.take (edges.findIdx (fun p => p.2.final))).map
            (fun p => (p.1, setAlphaInf p.2)) ++
          edges.drop (edges.findIdx (fun p => p.2.final))) ∧
    (edges.length < 2 → truncate_input_edges e draws edges = edges) ∧
    (∀ p l', edges = p :: l' → p.2.final = true →
      truncate_input_edges e draws edges = edges) := by
  have hany : edges.any (fun p => p.2.alpha.isSome || p.2.final) = true := by
    rw [List.any_eq_true]
    obtain ⟨p, hp, hf⟩ := hfin
    exact ⟨p, hp, by rw [hf]; simp⟩
  have c1 : 2 ≤ edges.length →
      truncate_input_edges e draws edges =
        (edges.take (edges.findIdx (fun p => p.2.final))).map
            (fun p => (p.1, setAlphaInf p.2)) ++
          edges.drop (edges.findIdx (fun p => p.2.final)) := by
    intro h2
    unfold truncate_input_edges
    rw [if_pos h2, if_pos hany, oneShotMutate_with_final edges hfin]
    rfl
  have c2 : edges.length < 2 → truncate_input_edges e draws edges = edges := by
    intro h2
    unfold truncate_input_edges
    rw [if_neg (by omega : ¬ 2 ≤ edges.length)]
  refine ⟨c1, c2, ?_⟩
  intro p l' heq hpf
  by_cases h2 : 2 ≤ edges.length
  · rw [c1 h2]
    subst heq
    simp only [List.findIdx_cons, hpf]
    simp
  · exact c2 (by omega)

/-- Witness for `truncate_with_final_edges` at the two-edge input. -/
theorem truncate_with_final_edges_w :
    (∃ p ∈ finEdges, p.2.final = true) ∧
    ((2 ≤ finEdges.length →
      truncate_input_edges (fun q => q + 1) (fun _ => 0) finEdges =
        (finEdges.take (finEdges.findIdx (fun p => p.2.final))).map
            (fun p => (p.1, setAlphaInf p.2)) ++
          finEdges.drop (finEdges.findIdx (fun p => p.2.final))) ∧
    (finEdges.length < 2 →
      truncate_input_edges (fun q => q + 1) (fun _ => 0) finEdges = finEdges) ∧
    (∀ p l', finEdges = p :: l' → p.2.final = true →
      truncate_input_edges (fun q => q + 1) (fun _ => 0) finEdges = finEdges)) :=
  ⟨by decide, truncate_with_final_edges (fun q => q + 1) (fun _ => 0) finEdges
    (by decide)⟩

/-! ## One-shot truncation keeps the stable top-2 (C4): helper lemmas -/

lemma oneShotMutate_no_final (l : List (ℕ × EdgeData))
    (h : ∀ p ∈ l, p.2.final = false) :
    oneShotMutate l = (l.map (fun p => (p.1, setAlphaInf p.2)), false) := by
  induction l with
  | nil => rfl
  | cons a l ih =>
    obtain ⟨u, d⟩ := a
    have hd : ¬ d.final = true := by
      rw [h (u, d) (by simp)]; simp
    simp only [oneShotMutate, if_neg hd, ih (fun p hp => h p (by simp [hp]))]
    rfl

lemma stable_orderedInsert {α : Type} (K : α → ℚ) (a x y : α) (L : List α)
    (h : [x, y].Sublist (L.orderedInsert (keyRel K) a)) :
    [x, y].Sublist L ∨ (x = a ∧ y ∈ L) ∨ (y = a ∧ x ∈ L ∧ K a < K x) := by
  induction L with
  | nil =>
    simp only [List.orderedInsert] at h
    have := h.length_le
    simp at this
  | cons b L ih =>
    simp only [List.orderedInsert] at h
    by_cases hab : keyRel K a b
    · rw [if_pos hab] at h
      rcases List.sublist_cons_iff.mp h with h' | ⟨t, ht, ht'⟩
      · exact Or.inl h'
      · injection ht with h1 h2
        subst h1
        subst h2
        exact Or.inr (Or.inl ⟨rfl, List.singleton_sublist.mp ht'⟩)
    · rw [if_neg hab] at h
      rcases List.sublist_cons_iff.mp h with h' | ⟨t, ht, ht'⟩
      · rcases ih h' with h'' | ⟨hxa, hy⟩ | ⟨hya, hx, hlt⟩
        · exact Or.inl (h''.cons b)
        · exact Or.inr (Or.inl ⟨hxa, List.mem_cons_of_mem b hy⟩)
        · exact Or.inr (Or.inr ⟨hya, List.mem_cons_of_mem b hx, hlt⟩)
      · injection ht with h1 h2
        subst h2
        have hy := List.singleton_sublist.mp ht'
        rcases (List.mem_orderedInsert _).mp hy with hya | hyL
        · refine Or.inr (Or.inr ⟨hya, ?_, ?_⟩)
          · rw [h1]; exact List.mem_cons_self b L
          · rw [h1]
            simp only [keyRel] at hab
            exact not_le.mp hab
        · refine Or.inl ?_
          rw [h1]
          exact (List.singleton_sublist.mpr hyL).cons₂ b

lemma stable_insertionSort {α : Type} (K : α → ℚ) (l : List α) (x y : α)
    (h : [x, y].Sublist (List.insertionSort (keyRel K) l)) :
    K y < K x ∨ [x, y].Sublist l := by
  induction l with
  | nil =>
    rw [List.insertionSort, List.sublist_nil] at h
    cases h
  | cons a l ih =>
    simp only [List.insertionSort] at h
    rcases stable_orderedInsert K a x y _ h with h' | ⟨hxa, hy⟩ | ⟨hya, hx, hlt⟩
    · rcases ih h' with hlt | hsub
      · exact Or.inl hlt
      · exact Or.inr (hsub.cons a)
    · have hyl : y ∈ l := (List.mem_insertionSort _).mp hy
      refine Or.inr ?_
      rw [hxa]
      exact (List.singleton_sublist.mpr hyl).cons₂ a
    · rw [hya]
      exact Or.inl hlt

lemma sublist_of_mem_take_drop {α : Type} (l : List α) (n : ℕ) (x y : α)
    (hx : x ∈ l.take n) (hy : y ∈ l.drop n) : [x, y].Sublist l := by
  have h1 : [x].Sublist (l.take n) := List.singleton_sublist.mpr hx
  have h2 : [y].Sublist (l.drop n) := List.singleton_sublist.mpr hy
  have h3 := h1.append h2
  rwa [List.take_append_drop] at h3

lemma rel_of_sorted_pair {α : Type} {r : α → α → Prop} {l : List α} {x y : α}
    (hs : List.Pairwise r l) (h : [x, y].Sublist l) : r x y := by
  have hp := List.Pairwise.sublist h hs
  rcases List.pairwise_cons.mp hp with ⟨h1, _⟩
  exact h1 y (by simp)

lemma eq_of_fst_eq_of_mem {β γ : Type} {l : List (β × γ)}
    (hnd : (l.map Prod.fst).Nodup) {p q : β × γ}
    (hp : p ∈ l) (hq : q ∈ l) (h : p.1 = q.1) : p = q := by
  induction l with
  | nil => cases hp
  | cons a l ih =>
    rw [List.map_cons, List.nodup_cons] at hnd
    rcases List.mem_cons.mp hp with rfl | hp' <;>
      rcases List.mem_cons.mp hq with rfl | hq'
    · rfl
    · exact absurd (h ▸ List.mem_map_of_mem Prod.fst hq') hnd.1
    · exact absurd (h ▸ List.mem_map_of_mem Prod.fst hp') hnd.1
    · exact ih hnd.2 hp' hq'

lemma le_foldr_max (l : List ℚ) (b : ℚ) : ∀ x ∈ l, x ≤ l.foldr max b := by
  induction l with
  | nil => intro x hx; cases hx
  | cons a l ih =>
    intro x hx
    rcases List.mem_cons.mp hx with rfl | hx'
    · exact le_max_left _ _
    · exact (ih x hx').trans (le_max_right _ _)

lemma foldl_min_bot (xs : List (WithBot ℚ)) :
    ∀ acc : WithBot ℚ, (acc = ⊥ ∨ (⊥ : WithBot ℚ) ∈ xs) → xs.foldl min acc = ⊥ := by
  induction xs with
  | nil =>
    intro acc h
    rcases h with rfl | h
    · rfl
    · cases h
  | cons a xs ih =>
    intro acc h
    simp only [List.foldl_cons]
    rcases h with rfl | h
    · exact ih (min ⊥ a) (Or.inl (min_eq_left bot_le))
    · rcases List.mem_cons.mp h with rfl | h'
      · exact ih (min acc ⊥) (Or.inl (min_eq_right bot_le))
      · exact ih (min acc a) (Or.inr h')

lemma wmin_eq_bot (l : List (WithBot ℚ)) (h : (⊥ : WithBot ℚ) ∈ l) : wmin l = ⊥ := by
  cases l with
  | nil => rfl
  | cons x xs =>
    rcases List.mem_cons.mp h with hx | h'
    · exact foldl_min_bot xs x (Or.inl hx.symm)
    · exact foldl_min_bot xs x (Or.inr h')

lemma set_eq_self_of_get? {α : Type} (l : List α) (n : ℕ) (a : α)
    (h : l.get? n = some a) : l.set n a = l := by
  induction l generalizing n with
  | nil => rfl
  | cons b l ih =>
    cases n with
    | zero =>
      simp only [List.get?] at h
      rw [List.set]
      exact congrArg (· :: l) (Option.some_injective _ h).symm
    | succ m =>
      simp only [List.get?] at h
      rw [List.set]
      exact congrArg (b :: ·) (ih m h)

lemma get?_set_self {α : Type} (l : List α) (n : ℕ) (a : α) (h : n < l.length) :
    (l.set n a).get? n = some a := by
  induction l generalizing n with
  | nil => cases h
  | cons b l ih =>
    cases n with
    | zero => rfl
    | succ m => exact ih m (by simpa using h)

lemma get?_set_zero_of_one {α : Type} (l : List α) (a : α) :
    (l.set 1 a).get? 0 = l.get? 0 := by
  cases l with
  | nil => rfl
  | cons b l => rfl

/-- The post-softmax facts for an edge whose stored alpha already has
`-inf` at the `Zero` index: its softmax weight at index 1 is 0, its
maximal softmax weight (the sort key) is positive, and the key bounds
every softmax weight. -/
lemma key_facts (e : ℚ → ℚ) (hpos : ∀ x : ℚ, 0 < e x) (d : EdgeData)
    (a : List (WithBot ℚ)) (ha : d.alpha = some a)
    (h1 : a.get? 1 = some ⊥) (hx : ∃ x, a.get? 0 = some x ∧ x ≠ ⊥) :
    (post_softmax e a).get? 1 = some 0 ∧
    0 < largest_post_softmax_weight e d ∧
    ∀ v ∈ post_softmax e a, v ≤ largest_post_softmax_weight e d := by
  have hbotmem : (⊥ : WithBot ℚ) ∈ a := List.get?_mem h1
  have hwmin : wmin a = ⊥ := wmin_eq_bot a hbotmem
  have ha1 : a.set 1 (wsub (wmin a) (1 / 1000)) = a := by
    rw [hwmin]
    exact set_eq_self_of_get? a 1 ⊥ h1
  have hps : post_softmax e a = (a.map (expExt e)).map
      (fun x => x / (a.map (expExt e)).sum) := by
    unfold post_softmax
    rw [ha1]
  have hnn : ∀ v ∈ a.map (expExt e), 0 ≤ v := by
    intro v hv
    obtain ⟨x, hxa, rfl⟩ := List.mem_map.mp hv
    by_cases hb : x = ⊥
    · rw [hb]; exact le_of_eq rfl
    · obtain ⟨q, rfl⟩ := WithBot.ne_bot_iff_exists.mp hb
      exact le_of_lt (hpos q)
  obtain ⟨x0, hx0, hx0b⟩ := hx
  obtain ⟨q0, hq0⟩ := WithBot.ne_bot_iff_exists.mp hx0b
  have hmem0 : e q0 ∈ a.map (expExt e) := by
    have hg : (a.map (expExt e)).get? 0 = some (expExt e x0) := by
      rw [List.get?_map, hx0]; rfl
    rw [← hq0] at hg
    exact List.get?_mem hg
  have hsum : 0 < (a.map (expExt e)).sum :=
    lt_of_lt_of_le (hpos q0) (List.single_le_sum hnn _ hmem0)
  have hget1 : (post_softmax e a).get? 1 = some 0 := by
    rw [hps, List.get?_map, List.get?_map, h1]
    show some ((expExt e ⊥) / (a.map (expExt e)).sum) = some 0
    rw [show expExt e (⊥ : WithBot ℚ) = 0 from rfl, zero_div]
  have hkeyval : largest_post_softmax_weight e d = (post_softmax e a).foldr max 0 := by
    unfold largest_post_softmax_weight
    rw [ha]
  have hsoft0 : (post_softmax e a).get? 0 =
      some (e q0 / (a.map (expExt e)).sum) := by
    rw [hps, List.get?_map, List.get?_map, hx0, ← hq0]
    rfl
  have h0mem : (e q0 / (a.map (expExt e)).sum) ∈ post_softmax e a :=
    List.get?_mem hsoft0
  refine ⟨hget1, ?_, ?_⟩
  · rw [hkeyval]
    exact lt_of_lt_of_le (div_pos (hpos q0) hsum) (le_foldr_max _ 0 _ h0mem)
  · intro v hv
    rw [hkeyval]
    exact le_foldr_max _ 0 v hv

/-- C4: in the one-shot case (every in-edge carries an alpha vector,
none finalized), truncation deletes all but 2 edges: the survivors'
post-softmax maximal weights beat every deleted edge's, with ties
resolved in favour of the first-enumerated edge (Python's stable sort);
the `Zero` weight of every edge is forced to `-inf`, its post-softmax
weight at index 1 is 0 while the winning weight is positive, so the
no-op can never be the winning operation. -/
theorem truncate_oneshot_top2 (e : ℚ → ℚ) (draws : ℕ → ℕ)
    (edges : List (ℕ × EdgeData))
    (hmono : StrictMono e) (hpos : ∀ x : ℚ, 0 < e x)
    (hlen : 2 ≤ edges.length)
    (halpha : ∀ p ∈ edges, ∃ a, p.2.alpha = some a ∧ 2 ≤ a.length ∧
      ∀ x ∈ a, x ≠ (⊥ : WithBot ℚ))
    (hfinal : ∀ p ∈ edges, p.2.final = false)
    (hdel : ∀ p ∈ edges, p.2.deleted = false)
    (hnd : (edges.map Prod.fst).Nodup) :
    (truncate_input_edges e draws edges).map Prod.fst = edges.map Prod.fst ∧
    ((truncate_input_edges e draws edges).filter (fun p => !p.2.deleted)).length = 2 ∧
    (∀ p ∈ truncate_input_edges e draws edges, p.2.deleted = false →
      ∀ q ∈ truncate_input_edges e draws edges, q.2.deleted = true →
        edgeKey e q < edgeKey e p ∨
          (edgeKey e q = edgeKey e p ∧ [p.1, q.1].Sublist (edges.map Prod.fst))) ∧
    (∀ p ∈ truncate_input_edges e draws edges, ∃ a, p.2.alpha = some a ∧
      a.get? 1 = some ⊥ ∧ (post_softmax e a).get? 1 = some 0 ∧
      0 < edgeKey e p ∧ ∀ v ∈ post_softmax e a, v ≤ edgeKey e p) := by
  classical
  set mutF : ℕ × EdgeData → ℕ × EdgeData :=
    fun p => (p.1, setAlphaInf p.2) with hmutF
  set mutl : List (ℕ × EdgeData) := edges.map mutF with hmutdef
  set sorted : List (ℕ × EdgeData) :=
    List.insertionSort (keyRel (edgeKey e)) mutl with hsorteddef
  set keep : List ℕ := (sorted.take 2).map Prod.fst with hkeepdef
  set markF : ℕ × EdgeData → ℕ × EdgeData :=
    fun p => if p.1 ∈ keep then p else (p.1, { p.2 with deleted := true })
    with hmarkF
  -- evaluating the function: the one-shot branch with no finalized edge
  have hne : edges ≠ [] := by
    intro h
    rw [h] at hlen
    exact absurd hlen (by decide)
  have hany : edges.any (fun p => p.2.alpha.isSome || p.2.final) = true := by
    rw [List.any_eq_true]
    obtain ⟨p, hp⟩ := List.exists_mem_of_ne_nil edges hne
    obtain ⟨a, ha, -, -⟩ := halpha p hp
    exact ⟨p, hp, by rw [ha]; simp⟩
  have htr : truncate_input_edges e draws edges = mutl.map markF := by
    unfold truncate_input_edges
    rw [if_pos hlen, if_pos hany, oneShotMutate_no_final edges hfinal]
    rfl
  -- basic structure
  have hmut_fst : mutl.map Prod.fst = edges.map Prod.fst := by
    rw [hmutdef, List.map_map]
    rfl
  have hnd_mut : (mutl.map Prod.fst).Nodup := by rw [hmut_fst]; exact hnd
  have hperm : sorted.Perm mutl := List.perm_insertionSort _ mutl
  have hnd_sorted : (sorted.map Prod.fst).Nodup :=
    ((hperm.map Prod.fst).nodup_iff).mpr hnd_mut
  have hsorted_sorted : List.Sorted (keyRel (edgeKey e)) sorted :=
    List.sorted_insertionSort _ mutl
  have hlen_mut : mutl.length = edges.length := by
    rw [hmutdef]; exact List.length_map edges mutF
  have hlen_sorted : sorted.length = edges.length := by
    rw [hperm.length_eq]; exact hlen_mut
  -- elementwise facts about the mutated edges
  have hmut_elem : ∀ p ∈ mutl, ∃ p₀ ∈ edges, p = mutF p₀ := by
    intro p hp
    rw [hmutdef] at hp
    obtain ⟨p₀, hp₀, hfp⟩ := List.mem_map.mp hp
    exact ⟨p₀, hp₀, hfp.symm⟩
  have hmut_del_false : ∀ p ∈ mutl, p.2.deleted = false := by
    intro p hp
    obtain ⟨p₀, hp₀, rfl⟩ := hmut_elem p hp
    exact hdel p₀ hp₀
  have hmut_alpha : ∀ p ∈ mutl, ∃ a, p.2.alpha = some a ∧ a.get? 1 = some ⊥ ∧
      ∃ x, a.get? 0 = some x ∧ x ≠ (⊥ : WithBot ℚ) := by
    intro p hp
    obtain ⟨p₀, hp₀, rfl⟩ := hmut_elem p hp
    obtain ⟨a₁, ha₁, hlen₁, hbot₁⟩ := halpha p₀ hp₀
    refine ⟨a₁.set 1 ⊥, ?_, ?_, ?_⟩
    · show (setAlphaInf p₀.2).alpha = some (a₁.set 1 ⊥)
      rw [setAlphaInf, ha₁]
      rfl
    · exact get?_set_self a₁ 1 ⊥ (by omega)
    · have h0 : (a₁.set 1 ⊥).get? 0 = a₁.get? 0 := get?_set_zero_of_one a₁ ⊥
      have h0' : 0 < a₁.length := by omega
      obtain ⟨x, hx⟩ : ∃ x, a₁.get? 0 = some x := by
        rcases hget : a₁.get? 0 with _ | x
        · rw [List.get?_eq_none] at hget
          omega
        · exact ⟨x, rfl⟩
      exact ⟨x, by rw [h0, hx], hbot₁ x (List.get?_mem hx)⟩
  -- the marking map
  have hmark_fst : ∀ p, (markF p).1 = p.1 := by
    intro p
    rw [hmarkF]
    by_cases hk : p.1 ∈ keep <;> simp [hk]
  have hmark_alpha : ∀ p, (markF p).2.alpha = p.2.alpha := by
    intro p
    rw [hmarkF]
    by_cases hk : p.1 ∈ keep <;> simp [hk]
  have hmark_key : ∀ p, edgeKey e (markF p) = edgeKey e p := by
    intro p
    rw [hmarkF]
    by_cases hk : p.1 ∈ keep
    · simp [hk]
    · simp only [if_neg hk]
      show largest_post_softmax_weight e { p.2 with deleted := true } =
        largest_post_softmax_weight e p.2
      rfl
  have hmark_deleted : ∀ p ∈ mutl, (markF p).2.deleted = decide (p.1 ∉ keep) := by
    intro p hp
    rw [hmarkF]
    by_cases hk : p.1 ∈ keep
    · simp [hk, hmut_del_false p hp]
    · simp [hk]
  -- membership in the kept ids pins an edge into the sorted top-2
  have hkeep_sub : keep ⊆ mutl.map Prod.fst := by
    intro u hu
    rw [hkeepdef] at hu
    obtain ⟨P, hP, hPu⟩ := List.mem_map.mp hu
    have hP' : P ∈ sorted := (List.take_sublist 2 sorted).subset hP
    exact hPu ▸ List.mem_map_of_mem Prod.fst (hperm.mem_iff.mp hP')
  have hkeep_nodup : keep.Nodup := by
    rw [hkeepdef]
    exact List.Nodup.sublist ((List.take_sublist 2 sorted).map Prod.fst) hnd_sorted
  have hkeep_len : keep.length = 2 := by
    rw [hkeepdef, List.length_map, List.length_take, hlen_sorted]
    omega
  have hmem_take : ∀ p ∈ mutl, p.1 ∈ keep → p ∈ sorted.take 2 := by
    intro p hp hk
    rw [hkeepdef] at hk
    obtain ⟨P, hP, hPp⟩ := List.mem_map.mp hk
    have hP' : P ∈ sorted := (List.take_sublist 2 sorted).subset hP
    have hps : p ∈ sorted := hperm.mem_iff.mpr hp
    have : P = p := eq_of_fst_eq_of_mem hnd_sorted hP' hps hPp
    exact this ▸ hP
  have hmem_drop : ∀ q ∈ mutl, q.1 ∉ keep → q ∈ sorted.drop 2 := by
    intro q hq hk
    have hqs : q ∈ sorted := hperm.mem_iff.mpr hq
    rw [← List.take_append_drop 2 sorted] at hqs
    rcases List.mem_append.mp hqs with h | h
    · exact absurd (hkeepdef ▸ List.mem_map_of_mem Prod.fst h) hk
    · exact h
  rw [htr]
  refine ⟨?_, ?_, ?_, ?_⟩
  · -- ids preserved
    rw [List.map_map]
    have : (Prod.fst ∘ markF) = fun p : ℕ × EdgeData => p.1 := funext hmark_fst
    rw [this, ← hmut_fst]
  · -- exactly two survivors
    have hfil : (mutl.map markF).filter (fun p => !p.2.deleted) =
        (mutl.filter (fun p => decide (p.1 ∈ keep))).map markF := by
      rw [List.filter_map]
      congr 1
      apply List.filter_congr
      intro p hp
      show (!(markF p).2.deleted) = decide (p.1 ∈ keep)
      rw [hmark_deleted p hp]
      by_cases hk : p.1 ∈ keep <;> simp [hk]
    rw [hfil, List.length_map]
    have hpermfil : ((mutl.map Prod.fst).filter (fun u => decide (u ∈ keep))).Perm
        keep := by
      rw [List.perm_ext_iff_of_nodup (hnd_mut.filter _) hkeep_nodup]
      intro u
      constructor
      · intro hu
        exact of_decide_eq_true (List.mem_filter.mp hu).2
      · intro hu
        exact List.mem_filter.mpr ⟨hkeep_sub hu, decide_eq_true hu⟩
    have hlf : ((mutl.map Prod.fst).filter (fun u => decide (u ∈ keep))).length =
        (mutl.filter (fun p => decide (p.1 ∈ keep))).length := by
      rw [List.filter_map, List.length_map]
      rfl
    rw [← hlf, hpermfil.length_eq, hkeep_len]
  · -- survivors beat deleted edges, ties to the first-enumerated
    intro p hp hpdel q hq hqdel
    obtain ⟨p₀, hp₀, rfl⟩ := List.mem_map.mp hp
    obtain ⟨q₀, hq₀, rfl⟩ := List.mem_map.mp hq
    have hpk : p₀.1 ∈ keep := by
      by_contra hk
      rw [hmark_deleted p₀ hp₀] at hpdel
      simp [hk] at hpdel
    have hqk : q₀.1 ∉ keep := by
      intro hk
      rw [hmark_deleted q₀ hq₀] at hqdel
      simp [hk] at hqdel
    have hpt : p₀ ∈ sorted.take 2 := hmem_take p₀ hp₀ hpk
    have hqd : q₀ ∈ sorted.drop 2 := hmem_drop q₀ hq₀ hqk
    have hpair : [p₀, q₀].Sublist sorted := sublist_of_mem_take_drop sorted 2 p₀ q₀ hpt hqd
    have hle0 : keyRel (edgeKey e) p₀ q₀ :=
      rel_of_sorted_pair hsorted_sorted hpair
    have hle : edgeKey e q₀ ≤ edgeKey e p₀ := hle0
    have hstable := stable_insertionSort (edgeKey e) mutl p₀ q₀ hpair
    rw [hmark_key p₀, hmark_key q₀, hmark_fst p₀, hmark_fst q₀]
    rcases lt_or_eq_of_le hle with hlt | heq
    · exact Or.inl hlt
    · refine Or.inr ⟨heq, ?_⟩
      rcases hstable with hlt | hsub
      · exact absurd heq (ne_of_lt hlt)
      · have := hsub.map Prod.fst
        rw [hmut_fst] at this
        exact this
  · -- the no-op weight is -inf and never wins
    intro p hp
    obtain ⟨p₀, hp₀, rfl⟩ := List.mem_map.mp hp
    obtain ⟨a, ha, h1, hx⟩ := hmut_alpha p₀ hp₀
    obtain ⟨hg1, hkpos, hbound⟩ := key_facts e hpos p₀.2 a ha h1 hx
    refine ⟨a, ?_, h1, hg1, ?_, ?_⟩
    · rw [hmark_alpha p₀]; exact ha
    · rw [hmark_key p₀]; exact hkpos
    · intro v hv
      rw [hmark_key p₀]
      exact hbound v hv

lemma qexp_pos : ∀ x : ℚ, 0 < qexp x := by
  intro x
  unfold qexp
  split_ifs with h
  · have h1 : (0 : ℚ) < 1 - x := by linarith
    positivity
  · push_neg at h
    linarith

lemma qexp_strictMono : StrictMono qexp := by
  intro a b hab
  unfold qexp
  split_ifs with ha hb hb
  · have h1 : (0 : ℚ) < 1 - a := by linarith
    have h2 : (0 : ℚ) < 1 - b := by linarith
    rw [div_lt_div_iff h1 h2]
    linarith
  · have h1 : (0 : ℚ) < 1 - a := by linarith
    have h2 : 1 / (1 - a) < 1 := by
      rw [div_lt_one h1]
      linarith
    push_neg at hb
    linarith
  · push_neg at ha
    linarith
  · linarith

/-- Witness for `truncate_oneshot_top2`. -/
theorem truncate_oneshot_top2_w :
    StrictMono qexp ∧ (∀ x : ℚ, 0 < qexp x) ∧ 2 ≤ oneShotEdgesW.length ∧
    (∀ p ∈ oneShotEdgesW, ∃ a, p.2.alpha = some a ∧ 2 ≤ a.length ∧
      ∀ x ∈ a, x ≠ (⊥ : WithBot ℚ)) ∧
    (∀ p ∈ oneShotEdgesW, p.2.final = false) ∧
    (∀ p ∈ oneShotEdgesW, p.2.deleted = false) ∧
    (oneShotEdgesW.map Prod.fst).Nodup ∧
    ((truncate_input_edges qexp (fun _ => 0) oneShotEdgesW).map Prod.fst =
        oneShotEdgesW.map Prod.fst ∧
      ((truncate_input_edges qexp (fun _ => 0) oneShotEdgesW).filter
          (fun p => !p.2.deleted)).length = 2 ∧
      (∀ p ∈ truncate_input_edges qexp (fun _ => 0) oneShotEdgesW,
        p.2.deleted = false →
        ∀ q ∈ truncate_input_edges qexp (fun _ => 0) oneShotEdgesW,
          q.2.deleted = true →
          edgeKey qexp q < edgeKey qexp p ∨
            (edgeKey qexp q = edgeKey qexp p ∧
              [p.1, q.1].Sublist (oneShotEdgesW.map Prod.fst))) ∧
      (∀ p ∈ truncate_input_edges qexp (fun _ => 0) oneShotEdgesW,
        ∃ a, p.2.alpha = some a ∧ a.get? 1 = some ⊥ ∧
          (post_softmax qexp a).get? 1 = some 0 ∧
          0 < edgeKey qexp p ∧
          ∀ v ∈ post_softmax qexp a, v ≤ edgeKey qexp p)) := by
  have halpha : ∀ p ∈ oneShotEdgesW, ∃ a, p.2.alpha = some a ∧ 2 ≤ a.length ∧
      ∀ x ∈ a, x ≠ (⊥ : WithBot ℚ) := by
    intro p hp
    simp only [oneShotEdgesW, List.mem_cons, List.not_mem_nil, or_false] at hp
    rcases hp with rfl | rfl | rfl
    · exact ⟨[1, 5], rfl, by decide, by decide⟩
    · exact ⟨[3, 0], rfl, by decide, by decide⟩
    · exact ⟨[2, 1], rfl, by decide, by decide⟩
  exact ⟨qexp_strictMono, qexp_pos, by decide, halpha, by decide, by decide, by decide,
    truncate_oneshot_top2 qexp (fun _ => 0) oneShotEdgesW qexp_strictMono qexp_pos
      (by decide) halpha (by decide) (by decide) (by decide)⟩

end NASLib
